import Mathlib

/-!
Shallow embedding of `src/padre.c` (padre-cli): a deterministic password
derivation pipeline.  C strings are modelled as `List Nat` of byte values
(the content bytes, without the terminating NUL); C pointers that may be
null are modelled as `Option`.  The external scrypt primitive is modelled
as an abstract function parameter.
-/

namespace Padre

/-- Byte values of a Lean string literal (ASCII), used to write concrete
C strings in theorems. -/
def bytes (s : String) : List Nat := s.data.map Char.toNat

/-! ## `atoi` (C standard library), as used by `parse_accounts` -/

/-- The digit-accumulation loop of `atoi`: consume leading decimal digits. -/
def atoiDigits : List Nat → Int → Int
  | [], acc => acc
  | c :: rest, acc =>
      if 48 ≤ c ∧ c ≤ 57 then atoiDigits rest (acc * 10 + ((c : Int) - 48))
      else acc

/-- C `isspace` in the default locale: space and the five control
whitespace characters 9–13. -/
def isspaceB (b : Nat) : Bool := b = 32 ∨ (9 ≤ b ∧ b ≤ 13)

/-- C `atoi`: skip leading whitespace, optional sign, then decimal digits;
yields 0 when no digits are present. -/
def atoi (s : List Nat) : Int :=
  match s.dropWhile (fun b => isspaceB b) with
  | 43 :: rest => atoiDigits rest 0
  | 45 :: rest => - atoiDigits rest 0
  | s' => atoiDigits s' 0

/-! ## `struct account` and `parse_accounts` (padre.c lines 158–258)

A field pointer that was never assigned (`nullptr`) is `none`; an assigned
field holds the bytes between the delimiters that cut it (the in-place
`'\0'` writes of the C code are modelled by slicing).  Diagnostics printed
to stderr are collected: `skipped` holds the number printed by the
"invalid entry at line %zu, skipping" message for each dropped row, and
`fatal` holds the number printed by the fatal length error when the whole
load is aborted (in which case the account list is freed, i.e. empty). -/

structure Account where
  domain : Option (List Nat) := none
  username : Option (List Nat) := none
  iteration : Option (List Nat) := none
  characters : Option (List Nat) := none
  length : Nat := 0
deriving DecidableEq, Repr

structure ParseResult where
  accounts : List Account
  skipped : List Nat
  fatal : Option Nat
deriving DecidableEq, Repr

/-- The scan loop of `parse_accounts`.  `cur` accumulates the bytes of the
current field (everything since the last delimiter that was cut), exactly
the bytes the C code leaves between `cur` and the next written `'\0'`. -/
def parseLoop : List Nat → List Nat → Account → List Account → List Nat → ParseResult
  | [], cur, acc, list, skipped =>
      -- `if (cur < end)`: bytes remain after the last delimiter
      if cur ≠ [] then ⟨list ++ [{ acc with characters := some cur }], skipped, none⟩
      else ⟨list, skipped, none⟩
  | b :: rest, cur, acc, list, skipped =>
      if b = 10 then
        let acc' := { acc with characters := some cur }
        if acc'.domain = none ∨ acc'.username = none then
          parseLoop rest [] {} list (skipped ++ [list.length + 1])
        else
          parseLoop rest [] {} (list ++ [acc']) skipped
      else if b = 44 then
        if acc.domain = none then
          parseLoop rest [] { acc with domain := some cur } list skipped
        else if acc.username = none then
          parseLoop rest [] { acc with username := some cur } list skipped
        else if acc.iteration = none then
          parseLoop rest [] { acc with iteration := some cur } list skipped
        else if acc.length = 0 then
          if atoi cur ≤ 0 then ⟨[], skipped, some (list.length + 1)⟩
          else parseLoop rest [] { acc with length := (atoi cur).toNat } list skipped
        else
          -- commas here are part of the pattern: kept as field content
          parseLoop rest (cur ++ [44]) acc list skipped
      else
        parseLoop rest (cur ++ [b]) acc list skipped

/-- `parse_accounts(begin, end)` over the whole buffer. -/
def parse_accounts (db : List Nat) : ParseResult :=
  parseLoop db [] {} [] []

/-! ## `push_char` and `enumerate_charset` (padre.c lines 64–156)

The stack buffer `char chars[95]` with `end = chars + 95` is modelled as a
bounded list: `push_char` fails (returns `none`, the C `nullptr`) once 95
bytes have been pushed, and a failed push is sticky.  The scan loop is
modelled with explicit fuel because the C loop's whitespace branch
(`if (isspace(c)) continue;`) repeats the iteration *without* advancing
`spec`: running out of fuel (`none` at the outer level) models
non-termination. -/

def push_char : Option (List Nat) → Nat → Option (List Nat)
  | none, _ => none
  | some l, c => if l.length < 95 then some (l ++ [c]) else none

/-- Push a whole list of bytes in order (the range-expansion `for` loop). -/
def pushList (r : Option (List Nat)) (cs : List Nat) : Option (List Nat) :=
  cs.foldl push_char r

/-- The inclusive byte range `l, l+1, …, c` (empty when `l > c`), as
enumerated by `for (; l <= c; l++)`. -/
def rangeList (l c : Nat) : List Nat := List.range' l (c + 1 - l)

/-- Scan state of `enumerate_charset`'s loop: `l` is the pending left side
of a character range (`0` = `'\0'` = none pending), `op` records whether a
`-` operator was seen, `result` is the write cursor into the bounded
buffer (`none` = `nullptr` after a failed push). -/
structure ScanState where
  l : Nat
  op : Bool
  result : Option (List Nat)
deriving DecidableEq, Repr

/-- One loop iteration of `enumerate_charset` on a non-whitespace,
non-NUL byte `c`. -/
def scanStep (c : Nat) (s : ScanState) : ScanState :=
  if s.l = 0 ∧ c = 45 then { s with result := push_char s.result 45 }
  else if s.l = 0 then { s with l := c }
  else if c = 45 then { s with op := true }
  else if s.op then { l := 0, op := false, result := pushList s.result (rangeList s.l c) }
  else { s with l := c, result := push_char s.result s.l }

/-- The `while (*spec != '\0')` loop, with fuel.  A whitespace byte
triggers `continue` without advancing the pointer, so the same byte is
examined again. -/
def enumLoop : Nat → List Nat → ScanState → Option ScanState
  | 0, _, _ => none
  | _ + 1, [], s => some s
  | fuel + 1, c :: rest, s =>
      if c = 0 then some s
      else if isspaceB c then enumLoop fuel (c :: rest) s
      else enumLoop fuel rest (scanStep c s)

/-- Alias resolution at the top of `enumerate_charset` (lines 80–101). -/
def resolve_spec (spec : List Nat) : List Nat :=
  if spec = [] ∨ spec = bytes ":graph:" ∨ spec = bytes "*" then bytes "!-~"
  else if spec = bytes ":alnum:" then bytes "a-zA-Z0-9"
  else if spec = bytes ":alpha:" then bytes "a-zA-Z"
  else if spec = bytes ":digit:" then bytes "0-9"
  else if spec = bytes ":lower:" then bytes "a-z"
  else if spec = bytes ":punct:" then bytes "!-/:-@[-`\x7b-~"
  else if spec = bytes ":upper:" then bytes "A-Z"
  else if spec = bytes ":word:" then bytes "A-Za-z0-9_"
  else if spec = bytes ":xdigit:" then bytes "A-Fa-f0-9"
  else spec

/-- The two conditional pushes after the scan loop (lines 134–139): a
pending left-range character, then a pending unmatched `-`. -/
def finalizeScan (s : ScanState) : Option (List Nat) :=
  let r1 := if s.l ≠ 0 then push_char s.result s.l else s.result
  if s.op then push_char r1 45 else r1

/-- `enumerate_charset(spec, &res, &rlen)`.  Outer `none` models
non-termination of the scan loop (fuel exhausted); `some none` models the
`-1`/`EINVAL` error return (buffer overflow); `some (some l)` models
success with the returned alphabet `l` (`*res`, of `strlen` length
`*rlen = l.length`). -/
def enumerate_charset (spec : List Nat) (fuel : Nat) : Option (Option (List Nat)) :=
  match enumLoop fuel (resolve_spec spec) ⟨0, false, some []⟩ with
  | none => none
  | some s =>
    let r2 := finalizeScan s
    -- result = push_char(result, end, '\0'); NULL result is EINVAL
    match push_char r2 0 with
    | none => some none
    | some _ =>
      match r2 with
      | some l => some (some l)
      | none => some none

/-! ## `to_chars` (padre.c lines 52–62)

Rewrites each raw scrypt byte `b` in place with `chars[b % clen]`; the
positions are independent, so the loop is a `map`. -/

def to_chars (rawBytes : List Nat) (chars : List Nat) : List Nat :=
  rawBytes.map (fun b => chars.getD (b % chars.length) 0)

/-! ## `derive_password` (padre.c lines 27–49)

The salt is a `malloc(salt_len + 1)` buffer filled by three `memcpy`
calls, each copying a field's bytes plus its NUL; the second and third
write at offset `strlen(salt)`.  Byte stores into the buffer are modelled
by `storeAt`; the buffer's indeterminate initial contents are irrelevant
because every byte of it is written, and they are modelled as zeros. -/

/-- `strlen` on a modelled byte buffer. -/
def strlenB (s : List Nat) : Nat := (s.takeWhile (fun b => b ≠ 0)).length

/-- `memcpy(buf + off, src, src.length)`: overwrite `src.length` bytes of
`buf` starting at offset `off`. -/
def storeAt (buf : List Nat) (off : Nat) (src : List Nat) : List Nat :=
  buf.take off ++ src ++ buf.drop (off + src.length)

/-- The salt construction inside `derive_password`: the buffer after the
three `memcpy` calls, truncated to `salt_len` (the length handed to
`crypto_scrypt`; the trailing NUL is not part of the salt). -/
def build_salt (domain username passno : List Nat) : List Nat :=
  let salt_len := strlenB domain + strlenB username + strlenB passno
  let b0 : List Nat := List.replicate (salt_len + 1) 0
  let b1 := storeAt b0 0 (domain.takeWhile (fun b => b ≠ 0) ++ [0])
  let b2 := storeAt b1 (strlenB b1) (username.takeWhile (fun b => b ≠ 0) ++ [0])
  let b3 := storeAt b2 (strlenB b2) (passno.takeWhile (fun b => b ≠ 0) ++ [0])
  b3.take salt_len

/-- `derive_password`: build the salt and call the external scrypt
primitive (`scrypt master salt outLen`, modelled as an abstract
deterministic function). -/
def derive_password (scrypt : List Nat → List Nat → Nat → List Nat)
    (master domain username passno : List Nat) (buf_len : Nat) : List Nat :=
  scrypt master (build_salt domain username passno) buf_len

/-- The per-record pipeline: compile the record's charset, derive raw
bytes of the requested length, map them onto the alphabet.  `none` when
charset compilation errors or fails to terminate within `fuel`. -/
def pipeline (scrypt : List Nat → List Nat → Nat → List Nat)
    (master domain username passno spec : List Nat) (len fuel : Nat) :
    Option (List Nat) :=
  match enumerate_charset spec fuel with
  | some (some alphabet) =>
      some (to_chars (derive_password scrypt master domain username passno len) alphabet)
  | _ => none

/-- Run the pipeline on a parsed account record (all four field pointers
must be non-null, as they are for records accepted with all fields). -/
def process_account (scrypt : List Nat → List Nat → Nat → List Nat)
    (master : List Nat) (a : Account) (fuel : Nat) : Option (List Nat) :=
  match a.domain, a.username, a.iteration, a.characters with
  | some d, some u, some i, some cs => pipeline scrypt master d u i cs a.length fuel
  | _, _, _, _ => none

/-! ## The pure expansion of a charset spec

`expandAux` lists, in order, exactly the bytes that the scan loop of
`enumerate_charset` (plus its two trailing pushes) attempts to push,
skipping whitespace the way the loop's `continue` was evidently meant to.
It is related to the bounded-buffer computation by
`enumLoop_eq_expandAux` below, proved for whitespace-free specs (on a
spec containing whitespace the loop does not terminate at all). -/

def expandAux : List Nat → Nat → Bool → List Nat
  | [], l, op => (if l ≠ 0 then [l] else []) ++ (if op then [45] else [])
  | c :: rest, l, op =>
      if c = 0 then (if l ≠ 0 then [l] else []) ++ (if op then [45] else [])
      else if isspaceB c then expandAux rest l op
      else if l = 0 ∧ c = 45 then 45 :: expandAux rest 0 op
      else if l = 0 then expandAux rest c op
      else if c = 45 then expandAux rest l true
      else if op then rangeList l c ++ expandAux rest 0 false
      else l :: expandAux rest c op

/-- The full expansion of a spec after alias resolution. -/
def expansion (spec : List Nat) : List Nat :=
  expandAux (resolve_spec spec) 0 false

/-- Alphanumeric ASCII bytes (the character class named by `:alnum:`). -/
def isAlnumB (b : Nat) : Bool :=
  (97 ≤ b ∧ b ≤ 122) ∨ (65 ≤ b ∧ b ≤ 90) ∨ (48 ≤ b ∧ b ≤ 57)

/-- A trivially deterministic stand-in for the external scrypt primitive,
honouring its length contract; used to instantiate witnesses. -/
def constScrypt : List Nat → List Nat → Nat → List Nat :=
  fun _ _ n => List.replicate n 0

/-! ## Helper lemmas -/

theorem to_chars_length (rawBytes chars : List Nat) :
    (to_chars rawBytes chars).length = rawBytes.length := by
  simp [to_chars]

theorem to_chars_getD (rawBytes chars : List Nat) (i : Nat) (h : i < rawBytes.length) :
    (to_chars rawBytes chars).getD i 0
      = chars.getD ((rawBytes.getD i 0) % chars.length) 0 := by
  simp [to_chars, List.getD_eq_getElem?_getD, List.getElem?_map,
    List.getElem?_eq_getElem h]

theorem to_chars_mem (rawBytes chars : List Nat) (h : chars ≠ []) :
    ∀ c ∈ to_chars rawBytes chars, c ∈ chars := by
  intro c hc
  simp only [to_chars, List.mem_map] at hc
  obtain ⟨b, _, rfl⟩ := hc
  have hlt : b % chars.length < chars.length :=
    Nat.mod_lt _ (List.length_pos.mpr h)
  rw [List.getD_eq_getElem chars 0 hlt]
  exact List.getElem_mem hlt

theorem takeWhile_ne_zero (l : List Nat) (h : 0 ∉ l) :
    l.takeWhile (fun b => b ≠ 0) = l := by
  rw [List.takeWhile_eq_self_iff]
  intro x hx
  simp only [ne_eq, decide_not, Bool.not_eq_true', decide_eq_false_iff_not]
  exact fun h0 => h (h0 ▸ hx)

theorem strlenB_of_not_mem (l : List Nat) (h : 0 ∉ l) : strlenB l = l.length := by
  rw [strlenB, takeWhile_ne_zero l h]

/-- `strlen` of a NUL-free prefix followed by a NUL byte. -/
theorem strlenB_append_zero (d rest : List Nat) (h : 0 ∉ d) :
    strlenB (d ++ 0 :: rest) = d.length := by
  rw [strlenB, List.takeWhile_append_of_pos]
  · rw [List.takeWhile_cons_of_neg (by simp)]
    simp
  · intro a ha
    simp only [ne_eq, decide_not, Bool.not_eq_true', decide_eq_false_iff_not]
    exact fun h0 => h (h0 ▸ ha)

theorem take_len_append (l₁ xs : List Nat) (k : Nat) :
    (l₁ ++ xs).take (l₁.length + k) = l₁ ++ xs.take k := by
  induction l₁ with
  | nil => simp
  | cons a t ih =>
    have hlen : (a :: t).length + k = (t.length + k) + 1 := by
      simp only [List.length_cons]; omega
    rw [List.cons_append, hlen, List.take_succ_cons, ih, List.cons_append]

theorem drop_len_append (l₁ xs : List Nat) (k : Nat) :
    (l₁ ++ xs).drop (l₁.length + k) = xs.drop k := by
  induction l₁ with
  | nil => simp
  | cons a t ih =>
    have hlen : (a :: t).length + k = (t.length + k) + 1 := by
      simp only [List.length_cons]; omega
    rw [List.cons_append, hlen, List.drop_succ_cons, ih]

/-- The three `memcpy` calls of `derive_password` produce exactly the
separator-free concatenation of the three NUL-free fields. -/
theorem build_salt_eq (d u p : List Nat) (hd : 0 ∉ d) (hu : 0 ∉ u) (hp : 0 ∉ p) :
    build_salt d u p = d ++ u ++ p := by
  have htd := takeWhile_ne_zero d hd
  have htu := takeWhile_ne_zero u hu
  have htp := takeWhile_ne_zero p hp
  have hsd := strlenB_of_not_mem d hd
  have hsu := strlenB_of_not_mem u hu
  have hsp := strlenB_of_not_mem p hp
  simp only [build_salt, htd, htu, htp, hsd, hsu, hsp]
  -- the buffer after the first memcpy
  have hb1 : storeAt (List.replicate (d.length + u.length + p.length + 1) 0) 0 (d ++ [0])
      = d ++ 0 :: List.replicate (u.length + p.length) 0 := by
    simp only [storeAt, List.take_zero, List.nil_append, List.length_append,
      List.length_singleton, Nat.zero_add]
    rw [List.drop_replicate]
    have harith : d.length + u.length + p.length + 1 - (d.length + 1)
        = u.length + p.length := by omega
    rw [harith]
    simp
  rw [hb1, strlenB_append_zero d _ hd]
  -- the buffer after the second memcpy
  have hb2 : storeAt (d ++ 0 :: List.replicate (u.length + p.length) 0) d.length (u ++ [0])
      = d ++ u ++ 0 :: List.replicate p.length 0 := by
    simp only [storeAt, List.length_append, List.length_singleton]
    have htake : (d ++ 0 :: List.replicate (u.length + p.length) 0).take d.length = d := by
      simp
    have hdrop : (d ++ 0 :: List.replicate (u.length + p.length) 0).drop
        (d.length + (u.length + 1)) = List.replicate p.length 0 := by
      rw [drop_len_append, List.drop_succ_cons, List.drop_replicate]
      have harith : u.length + p.length - u.length = p.length := by omega
      rw [harith]
    rw [htake, hdrop]
    simp
  have hmemdu : (0 : Nat) ∉ d ++ u := by
    intro hmem
    rcases List.mem_append.mp hmem with h | h
    exacts [hd h, hu h]
  have hs2 : strlenB (d ++ u ++ 0 :: List.replicate p.length 0)
      = d.length + u.length := by
    rw [strlenB_append_zero (d ++ u) _ hmemdu, List.length_append]
  rw [hb2, hs2]
  -- the buffer after the third memcpy
  have hb3 : storeAt (d ++ u ++ 0 :: List.replicate p.length 0)
        (d.length + u.length) (p ++ [0])
      = d ++ u ++ p ++ [0] := by
    simp only [storeAt, List.length_append, List.length_singleton]
    have htake : (d ++ u ++ 0 :: List.replicate p.length 0).take (d.length + u.length)
        = d ++ u := by
      have h0 := take_len_append (d ++ u) (0 :: List.replicate p.length 0) 0
      simpa using h0
    have hdrop : (d ++ u ++ 0 :: List.replicate p.length 0).drop
        (d.length + u.length + (p.length + 1)) = [] := by
      have h0 := drop_len_append (d ++ u) (0 :: List.replicate p.length 0) (p.length + 1)
      simpa using h0
    rw [htake, hdrop]
    simp
  rw [hb3]
  -- the salt handed to scrypt: the buffer truncated to salt_len
  have harith : d.length + u.length + p.length
      = d.length + (u.length + p.length) := by omega
  rw [harith]
  have h0 := take_len_append (d ++ u ++ p) [0] 0
  simpa using h0

/-- The scan loop of `enumerate_charset` never terminates once the head
of the remaining spec is a whitespace byte: the `continue` repeats the
iteration without advancing the pointer, so every amount of fuel is
exhausted. -/
theorem enumLoop_ws (c : Nat) (hc : isspaceB c = true) :
    ∀ (fuel : Nat) (rest : List Nat) (s : ScanState),
      enumLoop fuel (c :: rest) s = none := by
  intro fuel
  induction fuel with
  | zero => intro rest s; rfl
  | succ k ih =>
    intro rest s
    have hc0 : ¬c = 0 := by
      rintro rfl
      simp [isspaceB] at hc
    simp only [enumLoop, if_neg hc0, hc, if_pos]
    exact ih rest s

theorem pushList_none (cs : List Nat) : pushList none cs = none := by
  induction cs with
  | nil => rfl
  | cons c rest ih =>
    show pushList (push_char none c) rest = none
    simpa [push_char] using ih

theorem pushList_cons (r : Option (List Nat)) (x : Nat) (xs : List Nat) :
    pushList r (x :: xs) = pushList (push_char r x) xs := rfl

theorem pushList_append (r : Option (List Nat)) (xs ys : List Nat) :
    pushList r (xs ++ ys) = pushList (pushList r xs) ys :=
  List.foldl_append _ _ _ _

/-- Pushing a list of bytes into the bounded buffer succeeds exactly when
it fits, and then appends it; otherwise the cursor is `nullptr`. -/
theorem pushList_some (cs : List Nat) :
    ∀ acc : List Nat, acc.length ≤ 95 →
      pushList (some acc) cs
        = if acc.length + cs.length ≤ 95 then some (acc ++ cs) else none := by
  induction cs with
  | nil => intro acc hacc; simp [pushList]; omega
  | cons c rest ih =>
    intro acc hacc
    rw [pushList_cons]
    by_cases h : acc.length < 95
    · have hp : push_char (some acc) c = some (acc ++ [c]) := by simp [push_char, h]
      rw [hp, ih (acc ++ [c]) (by simp; omega)]
      have harith : (acc ++ [c]).length + rest.length = acc.length + (c :: rest).length := by
        simp
        omega
      rw [harith]
      split
      · simp
      · rfl
    · have hp : push_char (some acc) c = none := by simp [push_char, h]
      have hno : ¬(acc.length + (c :: rest).length ≤ 95) := by
        simp only [List.length_cons]
        omega
      rw [hp, pushList_none, if_neg hno]

/-- On a whitespace-free, NUL-free spec the scan loop terminates within
`spec.length < fuel` steps, and the final state of the bounded buffer —
after the two trailing pushes — is exactly the pure expansion pushed onto
the starting cursor. -/
theorem enumLoop_expand (spec : List Nat) :
    ∀ (fuel : Nat) (st : ScanState),
      (∀ b ∈ spec, isspaceB b = false ∧ b ≠ 0) →
      spec.length < fuel →
      ∃ s, enumLoop fuel spec st = some s ∧
        finalizeScan s = pushList st.result (expandAux spec st.l st.op) := by
  induction spec with
  | nil =>
    intro fuel st _ hf
    cases fuel with
    | zero => omega
    | succ k =>
      refine ⟨st, rfl, ?_⟩
      by_cases hl : st.l = 0 <;> by_cases hop : st.op
        <;> simp [finalizeScan, expandAux, pushList, hl, hop]
  | cons c rest ih =>
    intro fuel st h hf
    obtain ⟨hcs, hc0⟩ := h c (List.mem_cons_self c rest)
    cases fuel with
    | zero => simp at hf
    | succ k =>
      have hrest : ∀ b ∈ rest, isspaceB b = false ∧ b ≠ 0 :=
        fun b hb => h b (List.mem_cons_of_mem c hb)
      have hk : rest.length < k := by
        simp only [List.length_cons] at hf
        omega
      have hstep : enumLoop (k + 1) (c :: rest) st = enumLoop k rest (scanStep c st) := by
        simp only [enumLoop, if_neg hc0, hcs]
        rfl
      obtain ⟨s, hs, hfin⟩ := ih k (scanStep c st) hrest hk
      refine ⟨s, hstep ▸ hs, ?_⟩
      rw [hfin]
      by_cases hl : st.l = 0 <;> by_cases h45 : c = 45
      · -- bare `-` with no pending left char: emitted literally
        simp [scanStep, expandAux, pushList_cons, hl, h45, hc0, hcs, isspaceB]
      · -- c becomes the pending left char; nothing emitted yet
        simp [scanStep, expandAux, hl, h45, hc0, hcs]
      · -- range operator after a pending left char
        simp [scanStep, expandAux, hl, h45, hc0, hcs, isspaceB]
      · by_cases hop : st.op
        · -- complete range `l-c`
          simp [scanStep, expandAux, pushList_append, hl, h45, hop, hc0, hcs]
        · -- pending left char emitted literally, c becomes pending
          simp [scanStep, expandAux, pushList_cons, hl, h45, hop, hc0, hcs]

/-- Characterization of `enumerate_charset` on whitespace-free, NUL-free
resolved specs: it succeeds with the complete pure expansion when at most
94 bytes are expanded (the 95-byte buffer must also hold the terminating
NUL) and reports the overflow error otherwise. -/
theorem enumerate_charset_eq (spec : List Nat) (fuel : Nat)
    (h : ∀ b ∈ resolve_spec spec, isspaceB b = false ∧ b ≠ 0)
    (hf : (resolve_spec spec).length < fuel) :
    enumerate_charset spec fuel
      = if (expansion spec).length ≤ 94 then some (some (expansion spec))
        else some none := by
  obtain ⟨s, hs, hfin⟩ :=
    enumLoop_expand (resolve_spec spec) fuel ⟨0, false, some []⟩ h hf
  have hfin' : finalizeScan s
      = if (expansion spec).length ≤ 95 then some (expansion spec) else none := by
    rw [hfin]
    show pushList (some []) (expansion spec) = _
    rw [pushList_some (expansion spec) [] (by simp)]
    simp
  unfold enumerate_charset
  rw [hs]
  simp only []
  by_cases hlen : (expansion spec).length ≤ 94
  · have hfs : finalizeScan s = some (expansion spec) := by
      rw [hfin', if_pos (by omega)]
    rw [hfs]
    have hpush : push_char (some (expansion spec)) 0
        = some (expansion spec ++ [0]) := by
      simp [push_char]
      omega
    rw [hpush, if_pos hlen]
  · by_cases hlen95 : (expansion spec).length ≤ 95
    · -- the expansion fills the buffer exactly; the NUL no longer fits
      have hfs : finalizeScan s = some (expansion spec) := by
        rw [hfin', if_pos hlen95]
      rw [hfs]
      have hpush : push_char (some (expansion spec)) 0 = none := by
        simp [push_char]
        omega
      rw [hpush, if_neg hlen]
    · have hfs : finalizeScan s = none := by
        rw [hfin', if_neg hlen95]
      rw [hfs]
      have hpush : push_char (none : Option (List Nat)) 0 = none := rfl
      rw [hpush, if_neg hlen]

theorem pipeline_congr (f g : List Nat → List Nat → Nat → List Nat)
    (master d u p spec : List Nat) (len fuel : Nat)
    (h : ∀ m s n, f m s n = g m s n) :
    pipeline f master d u p spec len fuel = pipeline g master d u p spec len fuel := by
  simp only [pipeline, derive_password, h]

/-- Whenever the parse loop ends with the fatal length diagnostic set, the
returned account list is empty (the C code frees the list before
returning): the abort discards every previously accumulated record. -/
theorem parseLoop_fatal_empty (input : List Nat) :
    ∀ (cur : List Nat) (acc : Account) (list : List Account) (skipped : List Nat),
      (parseLoop input cur acc list skipped).fatal ≠ none →
      (parseLoop input cur acc list skipped).accounts = [] := by
  induction input with
  | nil =>
    intro cur acc list skipped h
    simp only [parseLoop] at h ⊢
    split at h <;> simp_all
  | cons b rest ih =>
    intro cur acc list skipped
    simp only [parseLoop]
    repeat' split
    all_goals first
      | (intro h; exact ih _ _ _ _ h)
      | (intro _; rfl)

/-! ## Claim theorems -/

/-- C2: for all fixed inputs (masterSecret, domain, username, iteration,
charsetSpec, length), the derivation pipeline is a deterministic function
of those inputs: any two runs — modelled as two invocations through two
scrypt primitives that agree pointwise, i.e. the external primitive
behaves deterministically — produce byte-identical passwords. -/
theorem claim2_determinism (f g : List Nat → List Nat → Nat → List Nat)
    (masterSecret domain username iteration charsetSpec : List Nat)
    (length fuel : Nat) (hdet : ∀ m s n, f m s n = g m s n) :
    pipeline f masterSecret domain username iteration charsetSpec length fuel
      = pipeline g masterSecret domain username iteration charsetSpec length fuel :=
  pipeline_congr f g masterSecret domain username iteration charsetSpec length fuel hdet

theorem claim2_witness :
    pipeline constScrypt (bytes "master") (bytes "example.com") (bytes "alice")
        (bytes "1") (bytes ":alnum:") 12 10
      = pipeline constScrypt (bytes "master") (bytes "example.com") (bytes "alice")
        (bytes "1") (bytes ":alnum:") 12 10 :=
  claim2_determinism constScrypt constScrypt (bytes "master") (bytes "example.com")
    (bytes "alice") (bytes "1") (bytes ":alnum:") 12 10 (fun _ _ _ => rfl)

/-- C3: `to_chars` (the alphabet mapper) returns a text whose length
equals the length of the raw byte sequence, whose `i`-th character is
`alphabet[rawBytes[i] mod len(alphabet)]`, and all of whose characters
are elements of the alphabet, for every byte sequence and every
non-empty alphabet. -/
theorem claim3_mapper (rawBytes alphabet : List Nat) (h : alphabet ≠ []) :
    (to_chars rawBytes alphabet).length = rawBytes.length ∧
    (∀ i, i < rawBytes.length →
      (to_chars rawBytes alphabet).getD i 0
        = alphabet.getD ((rawBytes.getD i 0) % alphabet.length) 0) ∧
    (∀ c ∈ to_chars rawBytes alphabet, c ∈ alphabet) :=
  ⟨to_chars_length rawBytes alphabet,
   fun i hi => to_chars_getD rawBytes alphabet i hi,
   to_chars_mem rawBytes alphabet h⟩

theorem claim3_witness :
    bytes "abc" ≠ [] ∧
    (to_chars [0, 1, 2, 255] (bytes "abc")).length = 4 ∧
    (∀ c ∈ to_chars [0, 1, 2, 255] (bytes "abc"), c ∈ bytes "abc") := by
  refine ⟨by decide, ?_, (claim3_mapper [0, 1, 2, 255] (bytes "abc") (by decide)).2.2⟩
  rw [(claim3_mapper [0, 1, 2, 255] (bytes "abc") (by decide)).1]
  decide

/-- C1 (counterexample): on the database line
`example.com,alice,1,:alnum:,12` the parser does *not* take the final
integer `12` as the length — at the fourth comma it runs `atoi` on the
token `:alnum:` between the third and fourth commas, gets 0, reports the
fatal length error and aborts the whole load: the result is an empty
account list, not the claimed record. -/
theorem claim1_counterexample :
    parse_accounts (bytes "example.com,alice,1,:alnum:,12\n")
      = ⟨[], [], some 1⟩ := by decide

/-- C1 (amended): the database format is
`domain,username,iteration,length,charsetSpec`: the token between the
third and fourth commas is consumed as the record's length and everything
after the fourth comma (commas included) as its charsetSpec.  The working
line for the scenario is `example.com,alice,1,12,:alnum:`; it parses to
exactly the claimed record, and for any master secret the pipeline — a
pure function of its inputs, hence reproducible run after run with the
deterministic scrypt primitive — produces a password of exactly 12
alphanumeric characters. -/
theorem claim1_amended (scrypt : List Nat → List Nat → Nat → List Nat)
    (masterSecret : List Nat) (hlen : ∀ m s n, (scrypt m s n).length = n) :
    (parse_accounts (bytes "example.com,alice,1,12,:alnum:\n")).accounts
      = [⟨some (bytes "example.com"), some (bytes "alice"), some (bytes "1"),
          some (bytes ":alnum:"), 12⟩] ∧
    ∀ a ∈ (parse_accounts (bytes "example.com,alice,1,12,:alnum:\n")).accounts,
      ∃ pw, process_account scrypt masterSecret a 10 = some pw ∧
        pw.length = 12 ∧ ∀ c ∈ pw, isAlnumB c := by
  have hparse : (parse_accounts (bytes "example.com,alice,1,12,:alnum:\n")).accounts
      = [⟨some (bytes "example.com"), some (bytes "alice"), some (bytes "1"),
          some (bytes ":alnum:"), 12⟩] := by decide
  refine ⟨hparse, ?_⟩
  intro a ha
  rw [hparse] at ha
  simp only [List.mem_singleton] at ha
  subst ha
  have halpha : enumerate_charset (bytes ":alnum:") 10
      = some (some (rangeList 97 122 ++ rangeList 65 90 ++ rangeList 48 57)) := by
    decide
  refine ⟨to_chars
      (derive_password scrypt masterSecret (bytes "example.com") (bytes "alice")
        (bytes "1") 12)
      (rangeList 97 122 ++ rangeList 65 90 ++ rangeList 48 57), ?_, ?_, ?_⟩
  · show pipeline scrypt masterSecret (bytes "example.com") (bytes "alice")
        (bytes "1") (bytes ":alnum:") 12 10 = _
    simp only [pipeline, halpha]
  · rw [to_chars_length, derive_password, hlen]
  · intro c hc
    exact (by decide :
        ∀ x ∈ rangeList 97 122 ++ rangeList 65 90 ++ rangeList 48 57, isAlnumB x)
      c (to_chars_mem _ _ (by decide) c hc)

theorem claim1_witness :
    (parse_accounts (bytes "example.com,alice,1,12,:alnum:\n")).accounts
      = [⟨some (bytes "example.com"), some (bytes "alice"), some (bytes "1"),
          some (bytes ":alnum:"), 12⟩] ∧
    ∀ a ∈ (parse_accounts (bytes "example.com,alice,1,12,:alnum:\n")).accounts,
      ∃ pw, process_account constScrypt (bytes "hunter2") a 10 = some pw ∧
        pw.length = 12 ∧ ∀ c ∈ pw, isAlnumB c :=
  claim1_amended constScrypt (bytes "hunter2")
    (fun _ _ n => List.length_replicate n 0)

/-- C4: the salt built by `derive_password` is exactly the bytes of
domain, then username, then iteration, concatenated with no separators
and no terminator counted in the salt length (the trailing NUL of the
allocation is excluded), with total length the sum of the three fields'
byte-lengths; at the spec's example fields `"a"`, `"b"`, `"c"` swapping
any two fields changes the resulting salt. -/
theorem claim4_salt (domain username iteration : List Nat)
    (hd : 0 ∉ domain) (hu : 0 ∉ username) (hp : 0 ∉ iteration) :
    build_salt domain username iteration = domain ++ username ++ iteration ∧
    (build_salt domain username iteration).length
      = domain.length + username.length + iteration.length ∧
    build_salt (bytes "a") (bytes "b") (bytes "c") = bytes "abc" ∧
    build_salt (bytes "b") (bytes "a") (bytes "c")
      ≠ build_salt (bytes "a") (bytes "b") (bytes "c") ∧
    build_salt (bytes "c") (bytes "b") (bytes "a")
      ≠ build_salt (bytes "a") (bytes "b") (bytes "c") ∧
    build_salt (bytes "a") (bytes "c") (bytes "b")
      ≠ build_salt (bytes "a") (bytes "b") (bytes "c") := by
  have hmain := build_salt_eq domain username iteration hd hu hp
  refine ⟨hmain, ?_, by decide, by decide, by decide, by decide⟩
  rw [hmain]
  simp [List.length_append]
  omega

theorem claim4_witness :
    (0 : Nat) ∉ bytes "example.com" ∧
    build_salt (bytes "example.com") (bytes "alice") (bytes "1")
      = bytes "example.com" ++ bytes "alice" ++ bytes "1" :=
  ⟨by decide,
   (claim4_salt (bytes "example.com") (bytes "alice") (bytes "1")
      (by decide) (by decide) (by decide)).1⟩

/-- C5 (counterexample): the claim says a non-numeric length token aborts
the load, but `atoi` accepts any token with a leading decimal prefix: on
`a,b,c,12x,y` the non-numeric token `12x` yields length 12 and a normally
accepted record — the parse does not abort and the list is not empty. -/
theorem claim5_counterexample :
    parse_accounts (bytes "a,b,c,12x,y\n")
      = ⟨[⟨some (bytes "a"), some (bytes "b"), some (bytes "c"),
           some (bytes "y"), 12⟩], [], none⟩ := by decide

/-- C5 (amended): a length field whose `atoi` value is zero or negative
(zero, negative, or with no leading digits at all) aborts the entire
load: whenever the fatal length diagnostic is reported the returned
account list is empty, discarding all previously accumulated records;
concretely, a database whose second line has length `-3` yields the empty
account list (not a partial one) and the load-level error naming line 2. -/
theorem claim5_amended :
    (∀ db : List Nat, (parse_accounts db).fatal ≠ none →
      (parse_accounts db).accounts = []) ∧
    parse_accounts (bytes "a,b,c,5,x\nd,e,f,-3,y\n") = ⟨[], [], some 2⟩ :=
  ⟨fun db => parseLoop_fatal_empty db [] {} [] [], by decide⟩

theorem claim5_witness :
    (parse_accounts (bytes "a,b,c,5,x\nd,e,f,-3,y\n")).accounts = [] :=
  claim5_amended.1 (bytes "a,b,c,5,x\nd,e,f,-3,y\n") (by decide)

/-- C7 (counterexample): the dropped-row diagnostic prints
`list.size + 1` — the number of *accepted* records plus one — not the
line's 1-based line number.  In the database `x\ny\n` both lines are
malformed; the second diagnostic concerns line 2 but is reported as
"line 1", because no record had been accepted yet. -/
theorem claim7_counterexample :
    parse_accounts (bytes "x\ny\n") = ⟨[], [1, 1], none⟩ ∧
    (parse_accounts (bytes "x\ny\n")).skipped ≠ [1, 2] := by
  constructor <;> decide

/-- C7 (amended): a line reaching its newline with domain or username
still unassigned is reported with the number `accepted-records-so-far + 1`
(which equals its 1-based line number exactly when every earlier line was
accepted) and dropped without aborting the parse: a database with one
line missing `username` (line 2, reported as 2 here since line 1 was
accepted) and four well-formed lines yields exactly the four well-formed
records plus the single diagnostic. -/
theorem claim7_amended :
    parse_accounts
        (bytes "d1,u1,i1,9,x\nq,\nd2,u2,i2,9,x\nd3,u3,i3,9,x\nd4,u4,i4,9,x\n")
      = ⟨[⟨some (bytes "d1"), some (bytes "u1"), some (bytes "i1"), some (bytes "x"), 9⟩,
          ⟨some (bytes "d2"), some (bytes "u2"), some (bytes "i2"), some (bytes "x"), 9⟩,
          ⟨some (bytes "d3"), some (bytes "u3"), some (bytes "i3"), some (bytes "x"), 9⟩,
          ⟨some (bytes "d4"), some (bytes "u4"), some (bytes "i4"), some (bytes "x"), 9⟩],
         [2], none⟩ := by decide

set_option maxRecDepth 10000 in
/-- C6 (counterexample): failing is not equivalent to the expansion
*exceeding* the 95-entry buffer.  The spec `!-~!` expands to exactly 95
entries — which do fit in the 95-byte buffer — yet compilation fails,
because the terminating NUL pushed after the expansion no longer fits. -/
theorem claim6_counterexample :
    enumerate_charset (bytes "!-~!") 5 = some none ∧
    (expansion (bytes "!-~!")).length = 95 := by
  constructor <;> decide

/-- C6 (amended): on a whitespace-free, NUL-free (resolved) spec, with
enough fuel for the scan, `enumerate_charset` fails with the overflow
error if and only if the expansion of the spec reaches 95 entries (the
usable capacity is 94 entries, since the 95-byte buffer also holds the
terminator), and on success the returned alphabet is the complete
expansion — never a truncation. -/
theorem claim6_amended (spec : List Nat) (fuel : Nat)
    (h : ∀ b ∈ resolve_spec spec, isspaceB b = false ∧ b ≠ 0)
    (hf : (resolve_spec spec).length < fuel) :
    (enumerate_charset spec fuel = some none ↔ 95 ≤ (expansion spec).length) ∧
    (∀ alphabet, enumerate_charset spec fuel = some (some alphabet) →
      alphabet = expansion spec) := by
  rw [enumerate_charset_eq spec fuel h hf]
  constructor
  · by_cases hlen : (expansion spec).length ≤ 94 <;> simp [hlen] <;> omega
  · intro alphabet halpha
    by_cases hlen : (expansion spec).length ≤ 94
    · rw [if_pos hlen] at halpha
      exact (Option.some_inj.mp (Option.some_inj.mp halpha)).symm
    · rw [if_neg hlen] at halpha
      exact absurd (Option.some_inj.mp halpha) (by simp)

theorem claim6_witness :
    (∀ b ∈ resolve_spec (bytes ":alnum:"), isspaceB b = false ∧ b ≠ 0) ∧
    (resolve_spec (bytes ":alnum:")).length < 10 ∧
    (enumerate_charset (bytes ":alnum:") 10 = some none
      ↔ 95 ≤ (expansion (bytes ":alnum:")).length) :=
  ⟨by decide, by decide, (claim6_amended (bytes ":alnum:") 10 (by decide) (by decide)).1⟩

/-- C8: the claim (and the spec's own intent) is that compilation
terminates on every spec with whitespace skipped, but the code's
whitespace branch runs `continue` without advancing the scan pointer:
on any spec containing a whitespace byte, such as `a b`, the loop spins
forever — modelled as exhausting every fuel bound. -/
theorem claim8_nontermination (fuel : Nat) :
    enumerate_charset (bytes "a b") fuel = none := by
  have hres : resolve_spec (bytes "a b") = [97, 32, 98] := by decide
  unfold enumerate_charset
  rw [hres]
  cases fuel with
  | zero => rfl
  | succ k =>
    have hstep : enumLoop (k + 1) [97, 32, 98] ⟨0, false, some []⟩
        = enumLoop k [32, 98] (scanStep 97 ⟨0, false, some []⟩) := by
      simp only [enumLoop]
      norm_num [isspaceB]
    rw [hstep, enumLoop_ws 32 (by decide) k [98] (scanStep 97 ⟨0, false, some []⟩)]

/-- C10 (counterexample): compilation can succeed with an *empty*
alphabet.  A descending range such as `z-a` makes the expansion loop
`for (; l <= c; l++)` run zero times, nothing is ever pushed, and
`enumerate_charset` returns success with length 0 — on which the mapper's
modulo `b % 0` is a division by zero. -/
theorem claim10_counterexample :
    enumerate_charset (bytes "z-a") 4 = some (some []) := by decide

/-- C10 (amended): the empty spec is replaced by the default printable
range `!`–`~` of 94 ≥ 1 characters, and whenever compilation succeeds
with a *nonempty* alphabet every character selected by the mapper's
modulo is an element of that alphabet; but success alone does not bound
the length below: a descending range yields an empty alphabet, so the
division by zero is only excluded for nonempty results. -/
theorem claim10_amended :
    (enumerate_charset (bytes "") 4 = some (some (rangeList 33 126)) ∧
      (rangeList 33 126).length = 94) ∧
    (∀ spec fuel alphabet rawBytes,
      enumerate_charset spec fuel = some (some alphabet) → alphabet ≠ [] →
      ∀ c ∈ to_chars rawBytes alphabet, c ∈ alphabet) := by
  refine ⟨⟨by decide, by decide⟩, ?_⟩
  intro spec fuel alphabet rawBytes _ hne
  exact to_chars_mem rawBytes alphabet hne

theorem claim10_witness :
    enumerate_charset (bytes ":digit:") 4 = some (some (rangeList 48 57)) ∧
    rangeList 48 57 ≠ [] ∧
    ∀ c ∈ to_chars [7, 200] (rangeList 48 57), c ∈ rangeList 48 57 :=
  ⟨by decide, by decide,
   claim10_amended.2 (bytes ":digit:") 4 (rangeList 48 57) [7, 200]
     (by decide) (by decide)⟩

/-- C9: the record invariant claimed by the spec fails on the code.  The
parser accepts at a newline any record whose `domain` and `username`
pointers were assigned, without checking emptiness, and a line with fewer
than four commas never has its length field parsed: `a,b,c` is accepted
as a record with `length = 0`, contradicting the invariant
`length > 0`. -/
theorem claim9_violation :
    parse_accounts (bytes "a,b,c\n")
      = ⟨[⟨some (bytes "a"), some (bytes "b"), none, some (bytes "c"), 0⟩],
         [], none⟩ ∧
    ∃ a ∈ (parse_accounts (bytes "a,b,c\n")).accounts, a.length = 0 := by
  constructor <;> decide

end Padre
